import Mathlib

/-!
Verification of the HTMLBooks mini HTML viewer (`main.cpp`): a shallow
embedding of its recursive HTML-file finder (`recursiveFindHtml`), the
folder-scope substring search and the current-page search (`onSearch`),
the home-page resolution (`onHome`) and result activation
(`onResultActivated`), together with theorems checking the documented
contracts of these operations.

The filesystem is modelled as a finite tree.  Each entry records the data
the code inspects through `QFileInfo`/`QDir`: its name, whether it is a
symbolic link, and (for files) its readable content — `none` meaning the
file cannot be opened — and (for directories) whether the directory's
listing succeeds (`readable`) plus its child entries.
-/

mutual

/-- A filesystem entry as seen by the program: a file (name, symlink flag,
content — `none` when the file cannot be opened for reading) or a
directory (name, symlink flag, whether its listing is readable, children). -/
inductive FSEntry : Type where
  | file : String → Bool → Option String → FSEntry
  | dir : String → Bool → Bool → FSList → FSEntry

/-- A list of filesystem entries (the children of a directory). -/
inductive FSList : Type where
  | nil : FSList
  | cons : FSEntry → FSList → FSList

end

namespace FSEntry

/-- Entry name, as `QFileInfo::fileName`. -/
def name : FSEntry → String
  | .file n _ _ => n
  | .dir n _ _ _ => n

/-- Whether the entry is a directory (`QFileInfo::isDir`). -/
def isDir : FSEntry → Bool
  | .file _ _ _ => false
  | .dir _ _ _ _ => true

/-- Whether the entry is a regular file (`QFileInfo::isFile`). -/
def isFile : FSEntry → Bool
  | .file _ _ _ => true
  | .dir _ _ _ _ => false

/-- Whether the entry is a symbolic link (`QFileInfo::isSymLink`). -/
def sym : FSEntry → Bool
  | .file _ s _ => s
  | .dir _ s _ _ => s

/-- File content as read by `QFile::open` + `readAll`; `none` when the
file cannot be opened (or the entry is a directory). -/
def content : FSEntry → Option String
  | .file _ _ c => c
  | .dir _ _ _ _ => none

end FSEntry

/-- The children of a directory entry, as an ordinary list. -/
def FSList.toList : FSList → List FSEntry
  | .nil => []
  | .cons e t => e :: t.toList

mutual

/-- Structural size of an entry, used for strong induction. -/
def sizeE : FSEntry → Nat
  | .file _ _ _ => 1
  | .dir _ _ _ es => 1 + sizeL es

/-- Structural size of a list of entries. -/
def sizeL : FSList → Nat
  | .nil => 0
  | .cons e t => sizeE e + sizeL t

end

/-- Whether `pat` is a prefix of the second list (character-wise equality). -/
def listStartsWith : List Char → List Char → Bool
  | [], _ => true
  | _ :: _, [] => false
  | a :: as, b :: bs => a = b && listStartsWith as bs

/-- Whether `suf` is a suffix of `l` (`QString::endsWith`). -/
def listEndsWith (suf l : List Char) : Bool :=
  listStartsWith suf.reverse l.reverse

/-- Whether `needle` occurs as a contiguous sublist of the second list
(`QString::contains`). -/
def listContains (needle : List Char) : List Char → Bool
  | [] => listStartsWith needle []
  | h :: t => listStartsWith needle (h :: t) || listContains needle t

/-- Name filter `*.html` / `*.htm` used by the finder and `onHome`: a name
matches when it ends with `.html` or `.htm`. -/
def htmlName (n : String) : Bool :=
  listEndsWith ".html".data n.data || listEndsWith ".htm".data n.data

/-- Lexicographic comparison of character lists by code point, modelling
`QString` comparison (`operator<=`). -/
def charListLe : List Char → List Char → Bool
  | [], _ => true
  | _ :: _, [] => false
  | a :: as, b :: bs =>
    if a.toNat = b.toNat then charListLe as bs else decide (a.toNat < b.toNat)

/-- Relation for `QDir` name sorting (`QDir::Name`): comparison on file names. -/
def nameLe (a b : FSEntry) : Prop := charListLe a.name.data b.name.data = true

instance : DecidableRel nameLe := fun a b => by
  unfold nameLe; infer_instance

/-- A file found by the finder, as the code later uses it through
`QFileInfo`: its containing directory path, its name, its content (as
`QFile` would read it; `none` when unreadable) and its symlink flag. -/
structure FoundFile : Type where
  dirPath : List String
  name : String
  content : Option String
  sym : Bool
deriving DecidableEq

/-- Absolute path of a found file (`QFileInfo::absoluteFilePath`), as path
components. -/
def FoundFile.fullPath (f : FoundFile) : List String := f.dirPath ++ [f.name]

/-- View of a file entry of directory `here` as a `QFileInfo`-style record. -/
def mkFound (here : List String) (e : FSEntry) : FoundFile :=
  ⟨here, e.name, e.content, e.sym⟩

/-- The file entries listed by
`entryInfoList({"*.html","*.htm"}, QDir::Files | QDir::NoSymLinks)`:
regular files, not symlinks, whose names match the HTML filters. -/
def htmlFileEntries (es : List FSEntry) : List FSEntry :=
  es.filter fun e => e.isFile && !e.sym && htmlName e.name

/-- Sorting of a file listing by name (`QDir::Name`). -/
def sortByName (es : List FSEntry) : List FSEntry :=
  List.insertionSort nameLe es

/-- Ordering used for the directory listing on line 316: `QDir`'s default
sort `Name | IgnoreCase`, modelled as comparison of lower-cased names
(here the results are keyed by the lower-cased directory name). -/
def keyLe (a b : String × List FoundFile) : Prop :=
  charListLe a.1.data b.1.data = true

instance : DecidableRel keyLe := fun a b => by
  unfold keyLe; infer_instance

/-- Lower-cased name, modelling the `IgnoreCase` comparison. -/
def lowerName (e : FSEntry) : String := ⟨e.name.data.map Char.toLower⟩

/-- Sort the per-subdirectory results by their `IgnoreCase` name key. -/
def sortKeyed (l : List (String × List FoundFile)) : List (String × List FoundFile) :=
  List.insertionSort keyLe l

mutual

/-- The finder `recursiveFindHtml` (main.cpp lines 313–322): for a directory, recurse
into each subdirectory from `entryInfoList(QDir::Dirs | QDir::NoDotAndDotDot)`
(name-sorted ignoring case; symlinked directories are *not* excluded),
concatenating their results, then append this directory's own
`*.html`/`*.htm` regular files from
`entryInfoList(filters, QDir::Files | QDir::NoSymLinks, QDir::Name)`.
An unreadable directory yields empty listings, hence `[]`; a path that is
not a directory also lists nothing.  `dirPath` is the path of the
directory entry itself (the function's `dirPath` argument in the source).
The recursion into subdirectories is expressed by computing each
subdirectory's result keyed by its sort name and concatenating in
key-sorted order, which is the order `QDir` hands the subdirectories out in. -/
def recursiveFindHtml (dirPath : List String) : FSEntry → List FoundFile
  | .file _ _ _ => []
  | .dir _ _ rd es =>
    if rd then
      ((sortKeyed (recursiveFindHtmlSubdirs dirPath es)).map Prod.snd).flatten
        ++ (sortByName (htmlFileEntries es.toList)).map (mkFound dirPath)
    else []

/-- Results of the recursive calls for each directory entry of the list,
keyed by the `IgnoreCase` sort name. -/
def recursiveFindHtmlSubdirs (dirPath : List String) : FSList → List (String × List FoundFile)
  | .nil => []
  | .cons e t =>
    (if e.isDir then [(lowerName e, recursiveFindHtml (dirPath ++ [e.name]) e)] else [])
      ++ recursiveFindHtmlSubdirs dirPath t

end

/-- Entry point `QDir(siteDir)` when the site directory may not exist: a nonexistent
root lists nothing, so the finder returns `[]` (main.cpp line 293 with a
missing `siteDir`). -/
def findFromRoot (siteDir : List String) : Option FSEntry → List FoundFile
  | none => []
  | some t => recursiveFindHtml siteDir t

/-- Path components joined with `/` separators, as characters. -/
def joinPath : List String → List Char
  | [] => []
  | [x] => x.data
  | x :: y :: t => x.data ++ '/' :: joinPath (y :: t)

/-- Path components joined with `/` separators
(`QFileInfo::absoluteFilePath` as a string). -/
def pathString (p : List String) : String := ⟨joinPath p⟩

/-- One entry of the results list: the display label
(`"%1 — %2".arg(fileName, absoluteFilePath)`) and the absolute file path
stored under `Qt::UserRole` (main.cpp lines 302–303). -/
structure ResultItem : Type where
  label : String
  filePath : String
deriving DecidableEq

/-- The `QListWidgetItem` built for a matching file. -/
def resultOf (fi : FoundFile) : ResultItem :=
  ⟨⟨fi.name.data ++ (" — ").data ++ joinPath fi.fullPath⟩, pathString fi.fullPath⟩

/-- The test `contents.contains(term, Qt::CaseInsensitive)` (main.cpp line 301):
case-insensitive substring test, modelled by lower-casing both sides. -/
def containsCI (contents term : String) : Bool :=
  listContains (term.data.map Char.toLower) (contents.data.map Char.toLower)

/-- The folder-scope search loop (main.cpp lines 295–307): for each file
of the finder's output in order, skip it if it cannot be opened
(`f.open` fails, modelled by `content = none`); otherwise include a
result item exactly when the file's full text contains the term
case-insensitively. -/
def searchFolder (term : String) (files : List FoundFile) : List ResultItem :=
  files.filterMap fun fi =>
    match fi.content with
    | none => none
    | some c => if containsCI c term then some (resultOf fi) else none

/-- The two entries of the scope combo box. -/
inductive SearchScope : Type where
  | currentPage
  | allSubpages
deriving DecidableEq

/-- Find flags of `QWebEnginePage` used by `onSearch`. -/
inductive QFindFlag : Type where
  | FindBackward
  | FindCaseSensitively
deriving DecidableEq

/-- Modelled from the Qt documentation of `QWebEnginePage::findText` (the
collaborator the code invokes on line 280): the callback receives whether
the term occurs in the page's text, case-sensitively when
`FindCaseSensitively` is among the flags and case-insensitively otherwise. -/
def findTextFound (flags : List QFindFlag) (pageText term : String) : Bool :=
  if flags.any fun f => f = QFindFlag.FindCaseSensitively then
    listContains term.data pageText.data
  else
    listContains (term.data.map Char.toLower) (pageText.data.map Char.toLower)

/-- Whitespace as removed by `QString::trimmed`. -/
def isSpaceChar (c : Char) : Bool :=
  c = ' ' || c = '\t' || c = '\n' || c = '\r' || c = '\x0b' || c = '\x0c'

/-- Trimming as `QString::trimmed`: strip leading and trailing whitespace. -/
def trimmed (s : String) : String :=
  ⟨((s.data.dropWhile isSpaceChar).reverse.dropWhile isSpaceChar).reverse⟩

/-- The window state touched by `onSearch`: the search box, the scope
combo, the results list, the status bar message, the displayed page (its
URL and its text), and the site directory with the tree found there
(`none` when the directory does not exist). -/
structure BrowserState : Type where
  searchText : String
  scope : SearchScope
  results : List ResultItem
  statusMsg : String
  pageUrl : String
  pageText : String
  siteDir : List String
  siteRoot : Option FSEntry

/-- The slot `onSearch` (main.cpp lines 273–311): trim the search box text; an
empty term returns immediately.  Otherwise clear the results list; in
"Current page" scope run `findText` with `FindCaseSensitively` and set
the status from its callback; in folder scope run the recursive finder
over the site directory, fill the results list with the matches and set
the status to "Search complete" or a no-matches message. -/
def onSearch (st : BrowserState) : BrowserState :=
  let term := trimmed st.searchText
  if term.data.isEmpty then st
  else
    match st.scope with
    | .currentPage =>
      { st with
        results := [],
        statusMsg :=
          if findTextFound [.FindCaseSensitively] st.pageText term then
            ⟨("Found on page: ").data ++ term.data⟩
          else
            ⟨("No matches for \x27").data ++ term.data ++ ("\x27 on current page").data⟩ }
    | .allSubpages =>
      let items := searchFolder term (findFromRoot st.siteDir st.siteRoot)
      { st with
        results := items,
        statusMsg :=
          if items.isEmpty then
            ⟨("No matches for \x27").data ++ term.data ++ ("\x27 in site directory").data⟩
          else "Search complete" }

/-- The slot `onResultActivated` (main.cpp lines 324–327): read the absolute file
path stored under `Qt::UserRole`; when it is nonempty request that the
page-rendering collaborator load exactly that path (`loadLocal`). -/
def onResultActivated (it : ResultItem) : Option String :=
  if it.filePath.data.isEmpty then none else some it.filePath

/-- The entries `QDir(siteDir)` can list: children of an existing,
readable directory, else nothing. -/
def dirEntriesOf : Option FSEntry → List FSEntry
  | some (.dir _ _ rd es) => if rd then es.toList else []
  | _ => []

/-- Existence check `QFile::exists(dir.filePath(n))`: some entry of the directory has
name `n`. -/
def qFileExists (entries : List FSEntry) (n : String) : Bool :=
  entries.any fun e => e.name = n

/-- The files listed by `entryList({"*.html","*.htm"}, QDir::Files, QDir::Name)`
on main.cpp line 203: file entries matching the HTML filters (symbolic
links are *not* excluded here). -/
def homeHtmlFiles (entries : List FSEntry) : List FSEntry :=
  entries.filter fun e => e.isFile && htmlName e.name

/-- Outcome of the Home action: load a page at a path, or only show the
informational "Home not found" message. -/
inductive HomeResult : Type where
  | load : List String → HomeResult
  | infoNoHome : String → HomeResult
deriving DecidableEq

/-- The slot `onHome` (main.cpp lines 186–214): try `index.html`, then
`index.htm`; if neither exists, fall back to the first name of the
name-sorted `*.html`/`*.htm` file listing; with no such file, show the
informational message. -/
def onHome (siteDir : List String) (root : Option FSEntry) : HomeResult :=
  let entries := dirEntriesOf root
  if qFileExists entries "index.html" then .load (siteDir ++ ["index.html"])
  else if qFileExists entries "index.htm" then .load (siteDir ++ ["index.htm"])
  else
    match (sortByName (homeHtmlFiles entries)).map FSEntry.name with
    | f :: _ => .load (siteDir ++ [f])
    | [] =>
      .infoNoHome
        ⟨("No index.html, index.htm, or other HTML files found in ").data
          ++ joinPath siteDir⟩

mutual

/-- No entry of the tree is a symbolic link. -/
def noSymE : FSEntry → Bool
  | .file _ s _ => !s
  | .dir _ s _ es => !s && noSymL es

/-- No entry of the list (recursively) is a symbolic link. -/
def noSymL : FSList → Bool
  | .nil => true
  | .cons e t => noSymE e && noSymL t

end

mutual

/-- Every directory of the tree is readable. -/
def allReadE : FSEntry → Bool
  | .file _ _ _ => true
  | .dir _ _ rd es => rd && allReadL es

/-- Every directory in the list (recursively) is readable. -/
def allReadL : FSList → Bool
  | .nil => true
  | .cons e t => allReadE e && allReadL t

end

mutual

/-- The tree is a well-formed directory tree: within each directory the
entry names are pairwise distinct (as on a real filesystem). -/
def validE : FSEntry → Bool
  | .file _ _ _ => true
  | .dir _ _ _ es => decide (es.toList.map FSEntry.name).Nodup && validL es

/-- Well-formedness of every entry of the list. -/
def validL : FSList → Bool
  | .nil => true
  | .cons e t => validE e && validL t

end

mutual

/-- The absolute paths of all `*.html`/`*.htm` files in the tree, in
structural order: the specification-level enumeration the finder's output
is compared against.  `dirPath` is the path of the entry itself. -/
def htmlPathsE (dirPath : List String) : FSEntry → List (List String)
  | .file _ _ _ => []
  | .dir _ _ _ es => htmlPathsL dirPath es

/-- The absolute paths of all `*.html`/`*.htm` files among the entries of
a directory at `dirPath` and their subtrees, in structural order. -/
def htmlPathsL (dirPath : List String) : FSList → List (List String)
  | .nil => []
  | .cons (.file m _ _) t =>
    (if htmlName m then [dirPath ++ [m]] else []) ++ htmlPathsL dirPath t
  | .cons (.dir m _ _ es) t =>
    htmlPathsL (dirPath ++ [m]) es ++ htmlPathsL dirPath t

end

/-- The paths contributed to the enumeration by one entry of a directory
at `dirPath`. -/
def htmlPathsOf (dirPath : List String) : FSEntry → List (List String)
  | .file m _ _ => if htmlName m then [dirPath ++ [m]] else []
  | .dir m _ _ es => htmlPathsL (dirPath ++ [m]) es

/-- A concrete symlink-free site tree used to instantiate theorems. -/
def exTree : FSEntry :=
  .dir "site" false true
    (.cons (.file "b.html" false (some "Hello World"))
    (.cons (.dir "sub" false true (.cons (.file "c.htm" false (some "deep page")) .nil))
    (.cons (.file "a.txt" false (some "notes")) .nil)))

/-- A symlinked subdirectory containing an HTML file. -/
def exSymSub : FSEntry :=
  .dir "sub" true true (.cons (.file "a.html" false (some "hi")) .nil)

/-- A site tree whose only subdirectory is a symbolic link. -/
def exSymTree : FSEntry := .dir "site" false true (.cons exSymSub .nil)

/-- Specification-level notion of a case-insensitive occurrence: the
content splits around a segment that equals the term up to letter case. -/
def OccursCI (term contents : String) : Prop :=
  ∃ pre mid post : List Char, contents.data = pre ++ mid ++ post ∧
    mid.map Char.toLower = term.data.map Char.toLower

/-- Name ordering on found files (alphabetical by file name). -/
def foundLe (a b : FoundFile) : Prop := charListLe a.name.data b.name.data = true

/-- Predicate: `res` is grouped for directory `q`: the results whose containing
directory is `q` form one contiguous run, and within that run the file
names are in alphabetical order. -/
def GroupedAt (res : List FoundFile) (q : List String) : Prop :=
  ∃ l₁ l₂ l₃, res = l₁ ++ l₂ ++ l₃ ∧
    (∀ x ∈ l₁, x.dirPath ≠ q) ∧ (∀ x ∈ l₂, x.dirPath = q) ∧
    (∀ x ∈ l₃, x.dirPath ≠ q) ∧ List.Pairwise foundLe l₂

/-- The alphabetically least element of a list of names, by folding. -/
def minNameFold : List String → Option String
  | [] => none
  | n :: t =>
    match minNameFold t with
    | none => some n
    | some m => if charListLe n.data m.data then some n else some m

/-- Modelled from the claim (C9), as the refinement target: resolve the
home page to `index.html` if it exists, else `index.htm` if it exists,
else the alphabetically first `*.html`/`*.htm` file of the site directory
(non-recursive), and with none of these show the informational message. -/
def homeSpec (siteDir : List String) (root : Option FSEntry) : HomeResult :=
  let entries := dirEntriesOf root
  if qFileExists entries "index.html" then .load (siteDir ++ ["index.html"])
  else if qFileExists entries "index.htm" then .load (siteDir ++ ["index.htm"])
  else
    match minNameFold ((homeHtmlFiles entries).map FSEntry.name) with
    | some n => .load (siteDir ++ [n])
    | none =>
      .infoNoHome
        ⟨("No index.html, index.htm, or other HTML files found in ").data
          ++ joinPath siteDir⟩

theorem sizeE_le_sizeL_of_mem :
    ∀ {es : FSList} {e : FSEntry}, e ∈ es.toList → sizeE e ≤ sizeL es
  | .cons a t, e, h => by
    rcases List.mem_cons.mp h with rfl | h'
    · simp [sizeL]
    · have := sizeE_le_sizeL_of_mem h'
      simp only [sizeL]
      omega

theorem sizeE_lt_of_mem {e : FSEntry} {n : String} {s r : Bool}
    {es : FSList} (h : e ∈ es.toList) : sizeE e < sizeE (.dir n s r es) := by
  have := sizeE_le_sizeL_of_mem h
  simp only [sizeE]
  omega

/-- Strong induction on the structural size of an entry. -/
theorem FSEntry.strongInd {P : FSEntry → Prop}
    (step : ∀ e, (∀ e', sizeE e' < sizeE e → P e') → P e) : ∀ e, P e := by
  have : ∀ n, ∀ e : FSEntry, sizeE e < n → P e := by
    intro n
    induction n with
    | zero => intro e h; omega
    | succ m ih =>
      intro e h
      exact step e fun e' h' => ih e' (by omega)
  intro e
  exact this (sizeE e + 1) e (Nat.lt_succ_self _)

theorem charListLe_refl : ∀ a : List Char, charListLe a a = true
  | [] => rfl
  | c :: t => by simp [charListLe, charListLe_refl t]

theorem charListLe_total : ∀ a b : List Char,
    charListLe a b = true ∨ charListLe b a = true
  | [], _ => Or.inl rfl
  | _ :: _, [] => Or.inr rfl
  | a :: as, b :: bs => by
    by_cases hab : a.toNat = b.toNat
    · rcases charListLe_total as bs with h | h
      · exact Or.inl (by simp [charListLe, hab, h])
      · exact Or.inr (by simp [charListLe, hab.symm, h])
    · rcases Nat.lt_or_ge a.toNat b.toNat with h | h
      · exact Or.inl (by simp [charListLe, hab, h])
      · have hba : ¬ b.toNat = a.toNat := fun e => hab e.symm
        have : b.toNat < a.toNat := lt_of_le_of_ne h hba
        exact Or.inr (by simp [charListLe, hba, this])

theorem charListLe_trans : ∀ {a b c : List Char},
    charListLe a b = true → charListLe b c = true → charListLe a c = true
  | [], _, _, _, _ => rfl
  | a :: as, b :: bs, c :: cs, h₁, h₂ => by
    by_cases hab : a.toNat = b.toNat <;> by_cases hbc : b.toNat = c.toNat
    · have h₁' : charListLe as bs = true := by simpa [charListLe, hab] using h₁
      have h₂' : charListLe bs cs = true := by simpa [charListLe, hbc] using h₂
      simp [charListLe, hab.trans hbc, charListLe_trans h₁' h₂']
    · have h₂' : b.toNat < c.toNat := by simpa [charListLe, hbc] using h₂
      have hac : ¬ a.toNat = c.toNat := by omega
      have : a.toNat < c.toNat := by omega
      simp [charListLe, hac, this]
    · have h₁' : a.toNat < b.toNat := by simpa [charListLe, hab] using h₁
      have hac : ¬ a.toNat = c.toNat := by omega
      have : a.toNat < c.toNat := by omega
      simp [charListLe, hac, this]
    · have h₁' : a.toNat < b.toNat := by simpa [charListLe, hab] using h₁
      have h₂' : b.toNat < c.toNat := by simpa [charListLe, hbc] using h₂
      have hac : ¬ a.toNat = c.toNat := by omega
      have : a.toNat < c.toNat := by omega
      simp [charListLe, hac, this]
  | _ :: _, [], _, h₁, _ => by simp [charListLe] at h₁
  | _ :: _, _ :: _, [], _, h₂ => by simp [charListLe] at h₂

theorem Char.toNat_inj' {a b : Char} (h : a.toNat = b.toNat) : a = b := by
  apply Char.ext
  exact UInt32.ext h

theorem charListLe_antisymm : ∀ {a b : List Char},
    charListLe a b = true → charListLe b a = true → a = b
  | [], [], _, _ => rfl
  | [], _ :: _, _, h₂ => by simp [charListLe] at h₂
  | _ :: _, [], h₁, _ => by simp [charListLe] at h₁
  | a :: as, b :: bs, h₁, h₂ => by
    by_cases hab : a.toNat = b.toNat
    · have h₁' : charListLe as bs = true := by simpa [charListLe, hab] using h₁
      have h₂' : charListLe bs as = true := by simpa [charListLe, hab.symm] using h₂
      rw [Char.toNat_inj' hab, charListLe_antisymm h₁' h₂']
    · have h₁' : a.toNat < b.toNat := by simpa [charListLe, hab] using h₁
      have hba : ¬ b.toNat = a.toNat := fun e => hab e.symm
      have h₂' : b.toNat < a.toNat := by simpa [charListLe, hba] using h₂
      omega

theorem listStartsWith_iff : ∀ {pat l : List Char},
    listStartsWith pat l = true ↔ ∃ r, l = pat ++ r := by
  intro pat
  induction pat with
  | nil => intro l; simp [listStartsWith]
  | cons a as ih =>
    intro l
    cases l with
    | nil =>
      simp only [listStartsWith]
      constructor
      · intro h; cases h
      · rintro ⟨r, hr⟩; cases hr
    | cons b bs =>
      simp only [listStartsWith, Bool.and_eq_true, decide_eq_true_eq, ih]
      constructor
      · rintro ⟨rfl, r, rfl⟩; exact ⟨r, rfl⟩
      · rintro ⟨r, hr⟩
        rw [List.cons_append] at hr
        cases hr
        exact ⟨rfl, r, rfl⟩

theorem listContains_iff : ∀ {needle l : List Char},
    listContains needle l = true ↔ ∃ s₁ s₂, l = s₁ ++ needle ++ s₂ := by
  intro needle l
  induction l with
  | nil =>
    simp only [listContains, listStartsWith_iff]
    constructor
    · rintro ⟨r, hr⟩
      exact ⟨[], r, by simpa using hr⟩
    · rintro ⟨s₁, s₂, h⟩
      rcases List.append_eq_nil.mp (List.append_eq_nil.mp h.symm).1 with ⟨h₁, h₂⟩
      exact ⟨s₂, by simp [h₂, (List.append_eq_nil.mp h.symm).2]⟩
  | cons c t ih =>
    simp only [listContains, Bool.or_eq_true, listStartsWith_iff, ih]
    constructor
    · rintro (⟨r, hr⟩ | ⟨s₁, s₂, rfl⟩)
      · exact ⟨[], r, by simpa using hr⟩
      · exact ⟨c :: s₁, s₂, rfl⟩
    · rintro ⟨s₁, s₂, hr⟩
      cases s₁ with
      | nil => exact Or.inl ⟨s₂, by simpa using hr⟩
      | cons d ds =>
        rw [List.cons_append, List.cons_append] at hr
        cases hr
        exact Or.inr ⟨ds, s₂, rfl⟩

theorem perm_flatten {α : Type} {l₁ l₂ : List (List α)} (h : l₁.Perm l₂) :
    l₁.flatten.Perm l₂.flatten := by
  induction h with
  | nil => exact List.Perm.refl _
  | cons x _ ih => simpa using ih.append_left x
  | swap x y l =>
    simp only [List.flatten_cons, ← List.append_assoc]
    exact (List.perm_append_comm).append_right _
  | trans _ _ ih₁ ih₂ => exact ih₁.trans ih₂

theorem recursiveFindHtmlSubdirs_eq (p : List String) :
    ∀ es : FSList, recursiveFindHtmlSubdirs p es =
      (es.toList.filter fun e => e.isDir).map
        (fun e => (lowerName e, recursiveFindHtml (p ++ [e.name]) e))
  | .nil => rfl
  | .cons e t => by
    rw [recursiveFindHtmlSubdirs, recursiveFindHtmlSubdirs_eq p t]
    cases he : e.isDir <;> simp [FSList.toList, List.filter_cons, he]

theorem htmlPathsL_eq (p : List String) :
    ∀ es : FSList, htmlPathsL p es = es.toList.flatMap (htmlPathsOf p)
  | .nil => rfl
  | .cons (.file m s c) t => by
    simp [htmlPathsL, FSList.toList, htmlPathsOf, htmlPathsL_eq p t]
  | .cons (.dir m s r es') t => by
    simp [htmlPathsL, FSList.toList, htmlPathsOf, htmlPathsL_eq p t]

theorem noSymL_mem : ∀ {es : FSList} {e : FSEntry},
    noSymL es = true → e ∈ es.toList → noSymE e = true
  | .cons a t, e, h, hm => by
    rw [noSymL, Bool.and_eq_true] at h
    rcases List.mem_cons.mp hm with rfl | hm'
    · exact h.1
    · exact noSymL_mem h.2 hm'

theorem allReadL_mem : ∀ {es : FSList} {e : FSEntry},
    allReadL es = true → e ∈ es.toList → allReadE e = true
  | .cons a t, e, h, hm => by
    rw [allReadL, Bool.and_eq_true] at h
    rcases List.mem_cons.mp hm with rfl | hm'
    · exact h.1
    · exact allReadL_mem h.2 hm'

theorem validL_mem : ∀ {es : FSList} {e : FSEntry},
    validL es = true → e ∈ es.toList → validE e = true
  | .cons a t, e, h, hm => by
    rw [validL, Bool.and_eq_true] at h
    rcases List.mem_cons.mp hm with rfl | hm'
    · exact h.1
    · exact validL_mem h.2 hm'

theorem mem_flatten_sortKeyed {p : List String} {es : FSList} {x : FoundFile}
    (hx : x ∈ ((sortKeyed (recursiveFindHtmlSubdirs p es)).map Prod.snd).flatten) :
    ∃ e ∈ es.toList, e.isDir = true ∧ x ∈ recursiveFindHtml (p ++ [e.name]) e := by
  rcases List.mem_flatten.mp hx with ⟨c, hc, hxc⟩
  rcases List.mem_map.mp hc with ⟨pr, hpr, rfl⟩
  have hpr' : pr ∈ recursiveFindHtmlSubdirs p es :=
    ((List.perm_insertionSort keyLe _).mem_iff).mp hpr
  rw [recursiveFindHtmlSubdirs_eq] at hpr'
  rcases List.mem_map.mp hpr' with ⟨e, he, rfl⟩
  rcases List.mem_filter.mp he with ⟨he', hd⟩
  exact ⟨e, he', hd, hxc⟩

theorem mem_recursiveFindHtml_dirPath :
    ∀ (t : FSEntry), ∀ {p : List String} {x : FoundFile},
      x ∈ recursiveFindHtml p t → ∃ r, x.dirPath = p ++ r := by
  refine FSEntry.strongInd ?_
  intro t ih p x hx
  cases t with
  | file n s c => simp [recursiveFindHtml] at hx
  | dir n s rd es =>
    rw [recursiveFindHtml] at hx
    cases rd with
    | false => simp at hx
    | true =>
      rw [if_pos rfl] at hx
      rcases List.mem_append.mp hx with hx' | hx'
      · rcases mem_flatten_sortKeyed hx' with ⟨e, he, _, hxe⟩
        rcases ih e (sizeE_lt_of_mem he) hxe with ⟨r, hr⟩
        exact ⟨e.name :: r, by rw [hr, List.append_assoc]; rfl⟩
      · rcases List.mem_map.mp hx' with ⟨e, _, rfl⟩
        exact ⟨[], by simp [mkFound]⟩

theorem mem_recursiveFindHtml_sym_false :
    ∀ (t : FSEntry), ∀ {p : List String} {x : FoundFile},
      x ∈ recursiveFindHtml p t → x.sym = false := by
  refine FSEntry.strongInd ?_
  intro t ih p x hx
  cases t with
  | file n s c => simp [recursiveFindHtml] at hx
  | dir n s rd es =>
    rw [recursiveFindHtml] at hx
    cases rd with
    | false => simp at hx
    | true =>
      rw [if_pos rfl] at hx
      rcases List.mem_append.mp hx with hx' | hx'
      · rcases mem_flatten_sortKeyed hx' with ⟨e, he, _, hxe⟩
        exact ih e (sizeE_lt_of_mem he) hxe
      · rcases List.mem_map.mp hx' with ⟨e, he, rfl⟩
        have he' : e ∈ htmlFileEntries es.toList :=
          ((List.perm_insertionSort nameLe _).mem_iff).mp he
        rcases List.mem_filter.mp he' with ⟨_, hcond⟩
        rw [Bool.and_eq_true, Bool.and_eq_true] at hcond
        have := hcond.1.2
        rw [Bool.not_eq_true'] at this
        exact this

theorem flatMap_congr_mem {α β : Type} {l : List α} {f g : α → List β}
    (h : ∀ a ∈ l, f a = g a) : l.flatMap f = l.flatMap g := by
  induction l with
  | nil => rfl
  | cons a t ih =>
    simp only [List.flatMap_cons]
    rw [h a (List.mem_cons_self a t), ih fun b hb => h b (List.mem_cons_of_mem a hb)]

theorem flatMap_if_filter {α β : Type} (c : α → Bool) (g : α → β) :
    ∀ l : List α, (l.flatMap fun e => if c e then [g e] else []) = (l.filter c).map g
  | [] => rfl
  | a :: t => by
    cases h : c a <;>
      simp [List.flatMap_cons, List.filter_cons, h, flatMap_if_filter c g t]

theorem flatMap_filter_perm {α β : Type} (q : α → Bool) (f : α → List β) :
    ∀ l : List α,
      (((l.filter q).flatMap f) ++ ((l.filter fun e => !q e).flatMap f)).Perm
        (l.flatMap f)
  | [] => by simp
  | a :: t => by
    have ih := flatMap_filter_perm q f t
    cases h : q a
    · have key : ((t.filter q).flatMap f ++
            (f a ++ (t.filter fun e => !q e).flatMap f)).Perm (f a ++ t.flatMap f) := by
        rw [← List.append_assoc]
        refine ((List.perm_append_comm).append_right _).trans ?_
        rw [List.append_assoc]
        exact ih.append_left (f a)
      simpa [List.filter_cons, h] using key
    · have key : ((f a ++ (t.filter q).flatMap f) ++
            (t.filter fun e => !q e).flatMap f).Perm (f a ++ t.flatMap f) := by
        rw [List.append_assoc]
        exact ih.append_left (f a)
      simpa [List.filter_cons, h] using key

theorem noSymE_sym {e : FSEntry} (h : noSymE e = true) : e.sym = false := by
  cases e with
  | file n s c => simpa [noSymE, FSEntry.sym] using h
  | dir n s r es =>
    rw [noSymE, Bool.and_eq_true] at h
    simpa [FSEntry.sym] using h.1

theorem isFile_eq_not_isDir (e : FSEntry) : e.isFile = !e.isDir := by
  cases e <;> rfl

theorem htmlFileEntries_of_noSym {es : FSList} (h : noSymL es = true) :
    htmlFileEntries es.toList = es.toList.filter fun e => e.isFile && htmlName e.name := by
  apply List.filter_congr
  intro e he
  rw [noSymE_sym (noSymL_mem h he)]
  simp

theorem htmlPathsOf_of_isDir {p : List String} {e : FSEntry} (h : e.isDir = true) :
    htmlPathsOf p e = htmlPathsE (p ++ [e.name]) e := by
  cases e with
  | file n s c => simp [FSEntry.isDir] at h
  | dir n s r es => rfl

theorem htmlPathsOf_of_not_isDir {p : List String} {e : FSEntry} (h : e.isDir = false) :
    htmlPathsOf p e = if htmlName e.name then [p ++ [e.name]] else [] := by
  cases e with
  | file n s c => rfl
  | dir n s r es => simp [FSEntry.isDir] at h

theorem fullPath_mkFound (p : List String) (e : FSEntry) :
    (mkFound p e).fullPath = p ++ [e.name] := rfl

/-- Core counting result: on a symlink-free tree whose directories are all
readable, the paths of the finder's output are a permutation of the
enumeration of all `*.html`/`*.htm` file paths in the tree. -/
theorem recursiveFindHtml_perm_htmlPaths :
    ∀ (t : FSEntry), ∀ (p : List String), noSymE t = true → allReadE t = true →
      ((recursiveFindHtml p t).map FoundFile.fullPath).Perm (htmlPathsE p t) := by
  refine FSEntry.strongInd ?_
  intro t ih p hsym hread
  cases t with
  | file n s c => simp [recursiveFindHtml, htmlPathsE]
  | dir n s rd es =>
    rw [noSymE, Bool.and_eq_true] at hsym
    rw [allReadE, Bool.and_eq_true] at hread
    obtain ⟨hrd, hreadL⟩ := hread
    subst hrd
    rw [recursiveFindHtml, if_pos rfl, htmlPathsE, htmlPathsL_eq, List.map_append]
    have hsplit := flatMap_filter_perm (fun e => e.isDir) (htmlPathsOf p) es.toList
    refine List.Perm.trans ?_ hsplit
    apply List.Perm.append
    · -- subdirectory part
      have h1 : (List.map FoundFile.fullPath
            ((List.map Prod.snd (sortKeyed (recursiveFindHtmlSubdirs p es))).flatten)) =
          ((List.map Prod.snd (sortKeyed (recursiveFindHtmlSubdirs p es))).map
            (List.map FoundFile.fullPath)).flatten := by
        rw [List.map_flatten]
      rw [h1]
      have h2 : ((List.map Prod.snd (sortKeyed (recursiveFindHtmlSubdirs p es))).map
            (List.map FoundFile.fullPath)).Perm
          ((List.map Prod.snd (recursiveFindHtmlSubdirs p es)).map
            (List.map FoundFile.fullPath)) :=
        ((List.perm_insertionSort keyLe _).map _).map _
      refine (perm_flatten h2).trans ?_
      rw [recursiveFindHtmlSubdirs_eq, List.map_map, List.map_map]
      have h3 : ((es.toList.filter fun e => e.isDir).map
            ((List.map FoundFile.fullPath ∘ Prod.snd) ∘
              fun e => (lowerName e, recursiveFindHtml (p ++ [e.name]) e))).flatten =
          (es.toList.filter fun e => e.isDir).flatMap
            (fun e => (recursiveFindHtml (p ++ [e.name]) e).map FoundFile.fullPath) := rfl
      rw [h3]
      apply List.Perm.flatMap_left
      intro e he
      rcases List.mem_filter.mp he with ⟨he', hd⟩
      rw [htmlPathsOf_of_isDir hd]
      exact ih e (sizeE_lt_of_mem he') (p ++ [e.name])
        (noSymL_mem hsym.2 he') (allReadL_mem hreadL he')
    · -- own-files part
      have h4 : (List.map FoundFile.fullPath
            ((sortByName (htmlFileEntries es.toList)).map (mkFound p))) =
          (sortByName (htmlFileEntries es.toList)).map (fun e => p ++ [e.name]) := by
        rw [List.map_map]; rfl
      rw [h4]
      refine ((List.perm_insertionSort nameLe _).map _).trans ?_
      rw [htmlFileEntries_of_noSym hsym.2]
      have h5 : ((es.toList.filter fun e => !e.isDir).flatMap (htmlPathsOf p)) =
          ((es.toList.filter fun e => !e.isDir).filter fun e => htmlName e.name).map
            (fun e => p ++ [e.name]) := by
        rw [← flatMap_if_filter]
        apply flatMap_congr_mem
        intro e he
        exact htmlPathsOf_of_not_isDir (by simpa using (List.mem_filter.mp he).2)
      rw [h5, List.filter_filter]
      have h6 : (es.toList.filter fun e => e.isFile && htmlName e.name) =
          (es.toList.filter fun a => !a.isDir && htmlName a.name) := by
        apply List.filter_congr
        intro e _
        rw [isFile_eq_not_isDir]
      rw [h6]
      have h7 : (es.toList.filter fun a => !a.isDir && htmlName a.name) =
          (es.toList.filter fun a => htmlName a.name && !a.isDir) := by
        apply List.filter_congr
        intro e _
        rw [Bool.and_comm]
      rw [h7]

theorem htmlPathsL_shape :
    ∀ (es : FSList) (q x : List String),
      x ∈ htmlPathsL q es → ∃ r, x = q ++ r ∧ r ≠ []
  | .cons (.file m s c) t, q, x, hx => by
    rw [htmlPathsL] at hx
    rcases List.mem_append.mp hx with hx' | hx'
    · refine ⟨[m], ?_, by simp⟩
      by_cases hm : htmlName m = true
      · rw [if_pos hm] at hx'
        simpa using hx'
      · rw [if_neg hm] at hx'
        simp at hx'
    · exact htmlPathsL_shape t q x hx'
  | .cons (.dir m s r es') t, q, x, hx => by
    rw [htmlPathsL] at hx
    rcases List.mem_append.mp hx with hx' | hx'
    · rcases htmlPathsL_shape es' (q ++ [m]) x hx' with ⟨r', hr', _⟩
      exact ⟨m :: r', by rw [hr', List.append_assoc]; rfl, by simp⟩
    · exact htmlPathsL_shape t q x hx'

theorem htmlPathsOf_shape {p : List String} {e : FSEntry} {x : List String}
    (hx : x ∈ htmlPathsOf p e) : ∃ r, x = p ++ e.name :: r := by
  cases e with
  | file m s c =>
    rw [htmlPathsOf] at hx
    by_cases hm : htmlName m = true
    · rw [if_pos hm] at hx
      exact ⟨[], by simpa [FSEntry.name] using hx⟩
    · rw [if_neg hm] at hx
      simp at hx
  | dir m s r es =>
    rw [htmlPathsOf] at hx
    rcases htmlPathsL_shape es (p ++ [m]) x hx with ⟨r', hr', _⟩
    exact ⟨r', by rw [hr', List.append_assoc]; rfl⟩

theorem flatMap_htmlPathsOf_nodup (p : List String) :
    ∀ l : List FSEntry, (l.map FSEntry.name).Nodup →
      (∀ e ∈ l, (htmlPathsOf p e).Nodup) → (l.flatMap (htmlPathsOf p)).Nodup
  | [], _, _ => by simp
  | a :: t, hn, he => by
    rw [List.map_cons, List.nodup_cons] at hn
    rw [List.flatMap_cons]
    refine List.Nodup.append (he a (List.mem_cons_self a t))
      (flatMap_htmlPathsOf_nodup p t hn.2
        fun e hm => he e (List.mem_cons_of_mem a hm)) ?_
    intro x hxa hxt
    rcases htmlPathsOf_shape hxa with ⟨r, rfl⟩
    rcases List.mem_flatMap.mp hxt with ⟨e, het, hxe⟩
    rcases htmlPathsOf_shape hxe with ⟨r', heq⟩
    have hcons : a.name :: r = e.name :: r' := List.append_cancel_left heq
    injection hcons with hname _
    exact hn.1 (hname ▸ List.mem_map_of_mem FSEntry.name het)

theorem htmlPathsE_nodup :
    ∀ (t : FSEntry), ∀ (p : List String), validE t = true → (htmlPathsE p t).Nodup := by
  refine FSEntry.strongInd ?_
  intro t ih p hv
  cases t with
  | file n s c => simp [htmlPathsE]
  | dir n s rd es =>
    rw [validE, Bool.and_eq_true, decide_eq_true_eq] at hv
    obtain ⟨hnames, hvl⟩ := hv
    rw [htmlPathsE, htmlPathsL_eq]
    refine flatMap_htmlPathsOf_nodup p es.toList hnames ?_
    intro e he
    cases e with
    | file m s' c' =>
      rw [htmlPathsOf]
      by_cases hm : htmlName m = true
      · rw [if_pos hm]; exact List.nodup_singleton _
      · rw [if_neg hm]; exact List.nodup_nil
    | dir m s' r' es' =>
      have := ih _ (sizeE_lt_of_mem he) (p ++ [m]) (validL_mem hvl he)
      rw [htmlPathsE] at this
      rw [htmlPathsOf]
      exact this

/-- C1: on a finite symlink-free directory tree with all directories
readable and filesystem-valid (distinct names within each directory), the
recursive finder returns exactly the `*.html`/`*.htm` files of the tree:
the returned absolute paths are a permutation of the enumeration of all
such files' paths, the number of returned paths equals the number of such
files, and no returned path repeats. -/
theorem recursiveFindHtml_returns_exactly_N (t : FSEntry) (p : List String)
    (hsym : noSymE t = true) (hread : allReadE t = true) (hvalid : validE t = true) :
    ((recursiveFindHtml p t).map FoundFile.fullPath).Perm (htmlPathsE p t) ∧
    (recursiveFindHtml p t).length = (htmlPathsE p t).length ∧
    ((recursiveFindHtml p t).map FoundFile.fullPath).Nodup := by
  have hperm := recursiveFindHtml_perm_htmlPaths t p hsym hread
  refine ⟨hperm, ?_, ?_⟩
  · have := hperm.length_eq
    simpa using this
  · exact (hperm.nodup_iff).mpr (htmlPathsE_nodup t p hvalid)

theorem recursiveFindHtml_returns_exactly_N_witness :
    noSymE exTree = true ∧ allReadE exTree = true ∧ validE exTree = true ∧
    (((recursiveFindHtml ["site"] exTree).map FoundFile.fullPath).Perm
        (htmlPathsE ["site"] exTree) ∧
      (recursiveFindHtml ["site"] exTree).length = (htmlPathsE ["site"] exTree).length ∧
      ((recursiveFindHtml ["site"] exTree).map FoundFile.fullPath).Nodup) :=
  ⟨by decide, by decide, by decide,
    recursiveFindHtml_returns_exactly_N exTree ["site"] (by decide) (by decide) (by decide)⟩

/-- C4 as stated is false: the file `a.html` lies inside the symlinked
directory `sub` (`exSymSub.sym = true`), yet its path is returned by the
finder, because the directory listing on line 316 does not pass
`QDir::NoSymLinks` — only the file listing on line 320 does. -/
theorem recursiveFindHtml_symlink_dir_counterexample :
    exSymSub.sym = true ∧
      (⟨["site", "sub"], "a.html", some "hi", false⟩ : FoundFile) ∈
        recursiveFindHtml ["site"] exSymTree := by
  decide

/-- C4 (amended): the finder excludes symbolic-link *files* — no entry of
the returned list is itself a symbolic link — but directories that are
symbolic links are still traversed, so files inside them may appear. -/
theorem recursiveFindHtml_excludes_symlink_files :
    ∀ (t : FSEntry) (p : List String) (x : FoundFile),
      x ∈ recursiveFindHtml p t → x.sym = false :=
  fun t _ _ hx => mem_recursiveFindHtml_sym_false t hx

theorem recursiveFindHtml_excludes_symlink_files_witness :
    (⟨["site"], "b.html", some "Hello World", false⟩ : FoundFile) ∈
        recursiveFindHtml ["site"] exTree ∧
      (⟨["site"], "b.html", some "Hello World", false⟩ : FoundFile).sym = false :=
  ⟨by decide,
    recursiveFindHtml_excludes_symlink_files exTree ["site"] _ (by decide)⟩

/-- C5: a file of the finder's output that cannot be opened for reading
(`content = none`) is silently skipped by the folder-scope search: it
contributes no result item and the items produced for all other files are
exactly those of the search without it. -/
theorem searchFolder_skips_unreadable (term : String) (xs ys : List FoundFile)
    (fi : FoundFile) (h : fi.content = none) :
    searchFolder term (xs ++ fi :: ys) = searchFolder term (xs ++ ys) := by
  simp [searchFolder, List.filterMap_append, List.filterMap_cons, h]

theorem searchFolder_skips_unreadable_witness :
    (⟨["site"], "bad.html", none, false⟩ : FoundFile).content = none ∧
      searchFolder "hello"
          ([⟨["site"], "a.html", some "say hello", false⟩] ++
            (⟨["site"], "bad.html", none, false⟩ : FoundFile) ::
              [⟨["site"], "b.html", some "nothing", false⟩]) =
        searchFolder "hello"
          ([⟨["site"], "a.html", some "say hello", false⟩] ++
            [⟨["site"], "b.html", some "nothing", false⟩]) :=
  ⟨rfl, searchFolder_skips_unreadable "hello" _ _ _ rfl⟩

/-- C6: a nonexistent root directory yields an empty finder result, an
unreadable directory's own traversal yields the empty list, and inside a
parent's listing an unreadable subdirectory contributes exactly the empty
result while the traversal of its siblings continues unchanged. -/
theorem recursiveFindHtml_missing_or_unreadable_root (p q : List String)
    (n m : String) (s sm : Bool) (es sub : FSList) (t : FSList) :
    findFromRoot p none = [] ∧
      recursiveFindHtml q (.dir n s false es) = [] ∧
      recursiveFindHtmlSubdirs q (.cons (.dir m sm false sub) t) =
        (lowerName (.dir m sm false sub), []) :: recursiveFindHtmlSubdirs q t := by
  refine ⟨rfl, by rw [recursiveFindHtml]; simp, ?_⟩
  rw [recursiveFindHtmlSubdirs]
  simp [FSEntry.isDir, recursiveFindHtml]

/-- C7: when the search-box text is empty after trimming whitespace,
`onSearch` is a no-op: the whole window state — results list, displayed
page, status message — is left unchanged. -/
theorem onSearch_empty_term_noop (st : BrowserState)
    (h : (trimmed st.searchText).data.isEmpty = true) : onSearch st = st := by
  simp [onSearch, h]

theorem onSearch_empty_term_noop_witness :
    (trimmed (BrowserState.mk "   " .allSubpages [] "Ready" "" "" ["site"]
        (some exTree)).searchText).data.isEmpty = true ∧
      onSearch (BrowserState.mk "   " .allSubpages [] "Ready" "" "" ["site"]
        (some exTree)) =
        BrowserState.mk "   " .allSubpages [] "Ready" "" "" ["site"] (some exTree) :=
  ⟨by decide,
    onSearch_empty_term_noop
      (BrowserState.mk "   " .allSubpages [] "Ready" "" "" ["site"] (some exTree))
      (by decide)⟩

theorem containsCI_iff_OccursCI {contents term : String} :
    containsCI contents term = true ↔ OccursCI term contents := by
  rw [containsCI, listContains_iff]
  constructor
  · rintro ⟨s₁, s₂, hs⟩
    rcases List.map_eq_append_iff.mp hs with ⟨l₁, l₂, hl, hm₁, hm₂⟩
    rcases List.map_eq_append_iff.mp hm₁ with ⟨l₃, l₄, hl', hm₃, hm₄⟩
    exact ⟨l₃, l₄, l₂, by rw [hl, hl'], hm₄⟩
  · rintro ⟨pre, mid, post, hsplit, hmid⟩
    refine ⟨pre.map Char.toLower, post.map Char.toLower, ?_⟩
    rw [hsplit]
    simp [hmid]

/-- C2: a readable file of the finder's output appears in the folder-scope
search results exactly when the term occurs in the file's full text as a
case-insensitive substring (the full paths of the searched files being
pairwise distinct, as the finder produces on a real filesystem). -/
theorem searchFolder_included_iff (term : String) (files : List FoundFile)
    (fi : FoundFile) (c : String) (hmem : fi ∈ files) (hc : fi.content = some c)
    (hnd : (files.map fun f => pathString f.fullPath).Nodup) :
    resultOf fi ∈ searchFolder term files ↔ OccursCI term c := by
  constructor
  · intro hin
    rcases List.mem_filterMap.mp hin with ⟨fj, hj, heq⟩
    cases hfjc : fj.content with
    | none =>
      simp only [hfjc] at heq
      exact Option.noConfusion heq
    | some c' =>
      simp only [hfjc] at heq
      by_cases hct : containsCI c' term = true
      · rw [if_pos hct] at heq
        have hres : resultOf fj = resultOf fi := Option.some.inj heq
        have hpath : pathString fj.fullPath = pathString fi.fullPath :=
          congrArg ResultItem.filePath hres
        have hfij : fj = fi := List.inj_on_of_nodup_map hnd hj hmem hpath
        subst hfij
        rw [hc] at hfjc
        rw [Option.some.inj hfjc]
        exact containsCI_iff_OccursCI.mp hct
      · rw [if_neg hct] at heq
        cases heq
  · intro hocc
    refine List.mem_filterMap.mpr ⟨fi, hmem, ?_⟩
    simp only [hc]
    rw [if_pos (containsCI_iff_OccursCI.mpr hocc)]

theorem searchFolder_included_iff_witness :
    (⟨["site"], "a.html", some "Hello World", false⟩ : FoundFile) ∈
        [(⟨["site"], "a.html", some "Hello World", false⟩ : FoundFile)] ∧
      (⟨["site"], "a.html", some "Hello World", false⟩ : FoundFile).content =
        some "Hello World" ∧
      (([(⟨["site"], "a.html", some "Hello World", false⟩ : FoundFile)].map
          fun f => pathString f.fullPath).Nodup) ∧
      (resultOf ⟨["site"], "a.html", some "Hello World", false⟩ ∈
          searchFolder "hello" [⟨["site"], "a.html", some "Hello World", false⟩] ↔
        OccursCI "hello" "Hello World") :=
  ⟨by decide, rfl, by decide,
    searchFolder_included_iff "hello" _ _ "Hello World" (by decide) rfl (by decide)⟩

/-- C8: the folder-scope results are exactly the matching files of the
finder's output, in the finder's order, each presented as the pair of
display label and stored absolute path; and activating any result item
whose stored path is nonempty requests loading exactly that path. -/
theorem searchFolder_items_order_activation (term : String) (files : List FoundFile) :
    searchFolder term files =
      ((files.filter fun fi =>
          match fi.content with
          | none => false
          | some c => containsCI c term).map resultOf) ∧
    ∀ it : ResultItem, it.filePath.data ≠ [] → onResultActivated it = some it.filePath := by
  constructor
  · induction files with
    | nil => rfl
    | cons a t ih =>
      cases hac : a.content with
      | none =>
        simp only [searchFolder, List.filterMap_cons, hac, List.filter_cons]
        simpa [searchFolder, hac] using ih
      | some c =>
        cases hct : containsCI c term <;>
          · simp only [searchFolder, List.filterMap_cons, hac, List.filter_cons, hct]
            simpa [searchFolder, hac, hct] using ih
  · intro it h
    rw [onResultActivated, if_neg]
    simpa using h

theorem searchFolder_items_order_activation_witness :
    (searchFolder "deep" (recursiveFindHtml ["site"] exTree) =
      (((recursiveFindHtml ["site"] exTree).filter fun fi =>
          match fi.content with
          | none => false
          | some c => containsCI c "deep").map resultOf)) ∧
      ((⟨"lbl", "site/sub/c.htm"⟩ : ResultItem).filePath.data ≠ [] ∧
        onResultActivated (⟨"lbl", "site/sub/c.htm"⟩ : ResultItem) =
          some (⟨"lbl", "site/sub/c.htm"⟩ : ResultItem).filePath) :=
  ⟨(searchFolder_items_order_activation "deep" (recursiveFindHtml ["site"] exTree)).1,
    by decide,
    (searchFolder_items_order_activation "deep" (recursiveFindHtml ["site"] exTree)).2
      ⟨"lbl", "site/sub/c.htm"⟩ (by decide)⟩

theorem groupedAt_nil (q : List String) : GroupedAt [] q :=
  ⟨[], [], [], rfl, by simp, by simp, by simp, List.Pairwise.nil⟩

theorem groupedAt_flatten (q : List String) :
    ∀ CS : List (List FoundFile), (∀ c ∈ CS, GroupedAt c q) →
      CS.Pairwise (fun c d => (∀ x ∈ c, x.dirPath ≠ q) ∨ (∀ x ∈ d, x.dirPath ≠ q)) →
      GroupedAt CS.flatten q
  | [], _, _ => groupedAt_nil q
  | c :: cs, hall, hpw => by
    rw [List.flatten_cons]
    by_cases hc : ∀ x ∈ c, x.dirPath ≠ q
    · rcases groupedAt_flatten q cs (fun d hd => hall d (List.mem_cons_of_mem c hd))
        hpw.of_cons with ⟨m₁, m₂, m₃, heq, h₁, h₂, h₃, hs⟩
      refine ⟨c ++ m₁, m₂, m₃, ?_, ?_, h₂, h₃, hs⟩
      · rw [heq]
        simp [List.append_assoc]
      · intro x hx
        rcases List.mem_append.mp hx with hx' | hx'
        · exact hc x hx'
        · exact h₁ x hx'
    · rcases hall c (List.mem_cons_self c cs) with ⟨c₁, c₂, c₃, heqc, hc₁, hc₂, hc₃, hcs⟩
      have hclean : ∀ d ∈ cs, ∀ x ∈ d, x.dirPath ≠ q := by
        intro d hd
        rcases (List.pairwise_cons.mp hpw).1 d hd with h | h
        · exact absurd h hc
        · exact h
      refine ⟨c₁, c₂, c₃ ++ cs.flatten, ?_, hc₁, hc₂, ?_, hcs⟩
      · rw [heqc]
        simp [List.append_assoc]
      · intro x hx
        rcases List.mem_append.mp hx with hx' | hx'
        · exact hc₃ x hx'
        · rcases List.mem_flatten.mp hx' with ⟨d, hd, hxd⟩
          exact hclean d hd x hxd

theorem mem_chunks {p : List String} {es : FSList} {c : List FoundFile}
    (hc : c ∈ (sortKeyed (recursiveFindHtmlSubdirs p es)).map Prod.snd) :
    ∃ e ∈ es.toList, e.isDir = true ∧ c = recursiveFindHtml (p ++ [e.name]) e := by
  rcases List.mem_map.mp hc with ⟨pr, hpr, rfl⟩
  have hpr' : pr ∈ recursiveFindHtmlSubdirs p es :=
    ((List.perm_insertionSort keyLe _).mem_iff).mp hpr
  rw [recursiveFindHtmlSubdirs_eq] at hpr'
  rcases List.mem_map.mp hpr' with ⟨e, he, rfl⟩
  rcases List.mem_filter.mp he with ⟨he', hd⟩
  exact ⟨e, he', hd, rfl⟩

theorem mem_subdir_result_dirPath {p : List String} {e : FSEntry} {x : FoundFile}
    (hx : x ∈ recursiveFindHtml (p ++ [e.name]) e) :
    ∃ r, x.dirPath = p ++ e.name :: r := by
  rcases mem_recursiveFindHtml_dirPath e hx with ⟨r, hr⟩
  exact ⟨r, by rw [hr, List.append_assoc]; rfl⟩

theorem append_cons_ne_self (p : List String) (a : String) (r : List String) :
    p ++ a :: r ≠ p := by
  intro h
  have h2 : p ++ a :: r = p ++ [] := by rw [List.append_nil]; exact h
  have h3 : a :: r = ([] : List String) := List.append_cancel_left h2
  cases h3

/-- C3: on a filesystem-valid tree (distinct names within each directory),
the finder's output is grouped by containing directory — for every
directory path `q`, the results lying in `q` form one contiguous run —
and within each such run the file names are in alphabetical order. -/
theorem recursiveFindHtml_grouped_by_dir_sorted :
    ∀ (t : FSEntry), ∀ (p : List String), validE t = true →
      ∀ q : List String, GroupedAt (recursiveFindHtml p t) q := by
  refine FSEntry.strongInd ?_
  intro t ih p hv q
  cases t with
  | file n s c => exact groupedAt_nil q
  | dir n s rd es =>
    rw [validE, Bool.and_eq_true, decide_eq_true_eq] at hv
    obtain ⟨hnames, hvl⟩ := hv
    cases rd with
    | false =>
      rw [recursiveFindHtml]
      simpa using groupedAt_nil q
    | true =>
      rw [recursiveFindHtml, if_pos rfl]
      have hflat : GroupedAt
          ((List.map Prod.snd (sortKeyed (recursiveFindHtmlSubdirs p es))).flatten) q := by
        apply groupedAt_flatten
        · intro c hc
          rcases mem_chunks hc with ⟨e, he, _, rfl⟩
          exact ih e (sizeE_lt_of_mem he) (p ++ [e.name]) (validL_mem hvl he) q
        · have hperm : (List.map Prod.snd (sortKeyed (recursiveFindHtmlSubdirs p es))).Perm
              (List.map Prod.snd (recursiveFindHtmlSubdirs p es)) :=
            (List.perm_insertionSort keyLe _).map _
          refine (hperm.pairwise_iff fun h => h.symm).mpr ?_
          rw [recursiveFindHtmlSubdirs_eq, List.map_map]
          rw [List.pairwise_map]
          have hD : ((es.toList.filter fun e => e.isDir).map FSEntry.name).Nodup :=
            hnames.sublist ((List.filter_sublist es.toList).map FSEntry.name)
          have hDpw : (es.toList.filter fun e => e.isDir).Pairwise
              (fun e e' => e.name ≠ e'.name) := List.pairwise_map.mp hD
          refine hDpw.imp ?_
          intro e e' hne
          by_cases hcl : ∀ x ∈ recursiveFindHtml (p ++ [e.name]) e, x.dirPath ≠ q
          · exact Or.inl hcl
          · push_neg at hcl
            rcases hcl with ⟨x, hx, hxq⟩
            rcases mem_subdir_result_dirPath hx with ⟨r, hr⟩
            refine Or.inr ?_
            intro y hy
            rcases mem_subdir_result_dirPath hy with ⟨r', hr'⟩
            rw [hr']
            intro hcontra
            rw [← hxq, hr] at hcontra
            have : e'.name :: r' = e.name :: r := List.append_cancel_left hcontra
            injection this with hn _
            exact hne hn.symm
      by_cases hq : q = p
      · subst hq
        rcases hflat with ⟨m₁, m₂, m₃, heq, h₁, h₂, h₃, hs⟩
        have hown : ∀ x ∈ (sortByName (htmlFileEntries es.toList)).map (mkFound q),
            x.dirPath = q := by
          intro x hx
          rcases List.mem_map.mp hx with ⟨e, _, rfl⟩
          rfl
        have hflat_ne : ∀ x ∈ (List.map Prod.snd
            (sortKeyed (recursiveFindHtmlSubdirs q es))).flatten, x.dirPath ≠ q := by
          intro x hx
          rcases List.mem_flatten.mp hx with ⟨c, hc, hxc⟩
          rcases mem_chunks hc with ⟨e, _, _, rfl⟩
          rcases mem_subdir_result_dirPath hxc with ⟨r, hr⟩
          rw [hr]
          exact append_cons_ne_self q e.name r
        refine ⟨(List.map Prod.snd (sortKeyed (recursiveFindHtmlSubdirs q es))).flatten,
          (sortByName (htmlFileEntries es.toList)).map (mkFound q), [], by simp,
          hflat_ne, hown, by simp, ?_⟩
        haveI : IsTotal FSEntry nameLe :=
          ⟨fun a b => charListLe_total a.name.data b.name.data⟩
        haveI : IsTrans FSEntry nameLe := ⟨fun _ _ _ => charListLe_trans⟩
        have hsorted : List.Pairwise nameLe (sortByName (htmlFileEntries es.toList)) :=
          List.sorted_insertionSort nameLe (htmlFileEntries es.toList)
        exact hsorted.map (mkFound q) fun a b hab => hab
      · rcases hflat with ⟨m₁, m₂, m₃, heq, h₁, h₂, h₃, hs⟩
        refine ⟨m₁, m₂, m₃ ++ (sortByName (htmlFileEntries es.toList)).map (mkFound p),
          ?_, h₁, h₂, ?_, hs⟩
        · rw [heq]
          simp [List.append_assoc]
        · intro x hx
          rcases List.mem_append.mp hx with hx' | hx'
          · exact h₃ x hx'
          · rcases List.mem_map.mp hx' with ⟨e, _, rfl⟩
            exact fun hcontra => hq hcontra.symm

theorem recursiveFindHtml_grouped_by_dir_sorted_witness :
    validE exTree = true ∧ GroupedAt (recursiveFindHtml ["site"] exTree) ["site"] :=
  ⟨by decide,
    recursiveFindHtml_grouped_by_dir_sorted exTree ["site"] (by decide) ["site"]⟩

theorem minNameFold_spec : ∀ L : List String,
    (minNameFold L = none ∧ L = []) ∨
    ∃ m, minNameFold L = some m ∧ m ∈ L ∧ ∀ n ∈ L, charListLe m.data n.data = true
  | [] => Or.inl ⟨rfl, rfl⟩
  | a :: t => by
    right
    rcases minNameFold_spec t with ⟨hnone, rfl⟩ | ⟨m, hm, hmem, hmin⟩
    · refine ⟨a, by simp only [minNameFold, hnone], List.mem_singleton.mpr rfl, ?_⟩
      intro n hn
      rw [List.mem_singleton.mp hn]
      exact charListLe_refl _
    · by_cases ham : charListLe a.data m.data = true
      · refine ⟨a, by simp only [minNameFold, hm]; rw [if_pos ham],
          List.mem_cons_self a t, ?_⟩
        intro n hn
        rcases List.mem_cons.mp hn with rfl | hn'
        · exact charListLe_refl _
        · exact charListLe_trans ham (hmin n hn')
      · have hma : charListLe m.data a.data = true := by
          rcases charListLe_total a.data m.data with h | h
          · exact absurd h ham
          · exact h
        refine ⟨m, by simp only [minNameFold, hm]; rw [if_neg ham],
          List.mem_cons_of_mem a hmem, ?_⟩
        intro n hn
        rcases List.mem_cons.mp hn with rfl | hn'
        · exact hma
        · exact hmin n hn'

theorem sortByName_head_min (l : List FSEntry) :
    ((sortByName l).map FSEntry.name).head? = minNameFold (l.map FSEntry.name) := by
  have hperm : (sortByName l).Perm l := List.perm_insertionSort nameLe l
  haveI : IsTotal FSEntry nameLe :=
    ⟨fun a b => charListLe_total a.name.data b.name.data⟩
  haveI : IsTrans FSEntry nameLe := ⟨fun _ _ _ => charListLe_trans⟩
  have hsorted : List.Pairwise nameLe (sortByName l) :=
    List.sorted_insertionSort nameLe l
  cases hs : sortByName l with
  | nil =>
    have hl : l = [] := by
      rw [hs] at hperm
      exact (List.Perm.nil_eq hperm).symm
    rw [hl]
    rfl
  | cons x xs =>
    rw [hs] at hperm hsorted
    rcases minNameFold_spec (l.map FSEntry.name) with ⟨_, hnil⟩ | ⟨m, hm, hmem, hmin⟩
    · have : x.name ∈ l.map FSEntry.name :=
        List.mem_map_of_mem FSEntry.name (hperm.mem_iff.mp (List.mem_cons_self x xs))
      rw [hnil] at this
      cases this
    · rw [hm]
      rcases List.mem_map.mp ((hperm.map FSEntry.name).mem_iff.mpr hmem) with ⟨e, he, hme⟩
      have hxm : charListLe x.name.data m.data = true := by
        rcases List.mem_cons.mp he with rfl | he'
        · rw [hme]
          exact charListLe_refl _
        · rw [← hme]
          exact (List.pairwise_cons.mp hsorted).1 e he'
      have hmx : charListLe m.data x.name.data = true :=
        hmin x.name
          (List.mem_map_of_mem FSEntry.name (hperm.mem_iff.mp (List.mem_cons_self x xs)))
      have : m = x.name := congrArg String.mk (charListLe_antisymm hmx hxm)
      rw [List.map_cons, List.head?_cons, this]

/-- C9: the Home action resolves deterministically in the documented
order — `index.html`, else `index.htm`, else the alphabetically first
`*.html`/`*.htm` file directly in the site directory, else only an
informational message — i.e. `onHome` coincides with the
specification-level resolution `homeSpec`. -/
theorem onHome_matches_homeSpec (sd : List String) (root : Option FSEntry) :
    onHome sd root = homeSpec sd root := by
  simp only [onHome, homeSpec]
  by_cases h1 : qFileExists (dirEntriesOf root) "index.html" = true
  · simp [h1]
  · by_cases h2 : qFileExists (dirEntriesOf root) "index.htm" = true
    · simp [h1, h2]
    · simp only [h1, h2, Bool.false_eq_true, if_false]
      have hhead := sortByName_head_min (homeHtmlFiles (dirEntriesOf root))
      cases hs : (sortByName (homeHtmlFiles (dirEntriesOf root))).map FSEntry.name with
      | nil =>
        have hmin : minNameFold ((homeHtmlFiles (dirEntriesOf root)).map FSEntry.name) =
            none := by
          rw [← hhead, hs]
          rfl
        rw [hmin]
      | cons f fs =>
        have hmin : minNameFold ((homeHtmlFiles (dirEntriesOf root)).map FSEntry.name) =
            some f := by
          rw [← hhead, hs]
          rfl
        rw [hmin]

/-- C10: in "Current page" scope the find-in-page runs with
`FindCaseSensitively`: for the page text `Hello World` and the term
`hello world` (differing only in letter case) the current-page search
reports no match, although the same content matches case-insensitively
and the folder-scope search over a file with that content does produce a
result. -/
theorem onSearch_currentPage_case_sensitive :
    (onSearch (BrowserState.mk "hello world" .currentPage [] "Ready" "page.html"
        "Hello World" ["site"] (some exTree))).statusMsg =
      "No matches for \x27hello world\x27 on current page" ∧
    containsCI "Hello World" "hello world" = true ∧
    (onSearch (BrowserState.mk "hello world" .allSubpages [] "Ready" "page.html"
        "Hello World" ["site"] (some exTree))).results ≠ [] := by
  refine ⟨by decide, by decide, by decide⟩
